import Mathlib

/-!
Shallow embedding of the field-level error aggregation model and the
request-unmarshalling helpers of the `webutil` Go library, together with
proofs of the spec's testable properties.

Both `ValidationErrors` and `Errors` in the sources are the Go type
`map[string][]string`.  The map is embedded as an association list with the
Go semantics made explicit: `lookup` is the comma-ok map read, and
`setAppend` is the map assignment `e[key] = append(e[key], msgs...)`.
Key order in the list is an encoding artefact (Go map iteration order is
unspecified); every theorem below is about per-field content only.
-/

namespace Webutil

/-- Association-list encoding of the Go `map[string][]string` behind both
`ValidationErrors` and `Errors`.  An entry may in principle carry an empty
slice, exactly as a Go map key may be assigned a nil slice. -/
abbrev ErrorMap := List (String × List String)

/-- Go comma-ok map read `errs, ok := e[key]`: `some msgs` when the key is
present, `none` when absent. -/
def lookup (e : ErrorMap) (k : String) : Option (List String) :=
  (e.find? (fun p => p.1 == k)).map Prod.snd

/-- Go map read as a slice value: an absent key reads as the nil slice,
which is indistinguishable from the empty slice. -/
def lookupSlice (e : ErrorMap) (k : String) : List String :=
  (lookup e k).getD []

/-- Go map assignment `e[key] = append(e[key], msgs...)`: extend the slice
stored under the key, creating the key when absent. -/
def setAppend (e : ErrorMap) (k : String) (msgs : List String) : ErrorMap :=
  if (lookup e k).isSome then
    e.map (fun p => if p.1 = k then (p.1, p.2 ++ msgs) else p)
  else
    e ++ [(k, msgs)]

/-- Encoding invariant of the association list: keys are distinct, as the
keys of a Go map always are. -/
def nodupKeys (e : ErrorMap) : Prop := (e.map Prod.fst).Nodup

/-- Data-model invariant of the spec: a field key is present only if it has
at least one message. -/
def wf (e : ErrorMap) : Prop := ∀ p ∈ e, p.2 ≠ []

instance (e : ErrorMap) : Decidable (nodupKeys e) := by
  unfold nodupKeys; infer_instance

instance (e : ErrorMap) : Decidable (wf e) := by
  unfold wf; infer_instance

/-- Go error value as seen by `ValidationErrors.Add`: either a
`schema.ConversionError` (whose wrapped cause `Add` unwraps before calling
`Error()`) or any other error, carrying its `Error()` message. -/
inductive GoErr
  | conversion (inner : String)
  | plain (msg : String)
deriving DecidableEq

/-- Message that `err.Error()` produces after the `ConversionError` unwrap
performed at the top of `ValidationErrors.Add`. -/
def GoErr.message : GoErr → String
  | .conversion inner => inner
  | .plain msg => msg

/-- Go `ValidationErrors.Add` (webutil.go): unwrap a `schema.ConversionError`,
then `e[key] = append(e[key], err.Error())`.  There is no nil guard, so a
nil error (`none`) makes the `err.Error()` call panic, modelled as `none`. -/
def ValidationErrors.Add (e : ErrorMap) (k : String) (err : Option GoErr) :
    Option ErrorMap :=
  match err with
  | none => none
  | some g => some (setAppend e k [g.message])

/-- Go `Errors.Put` (errors.go): `if err == nil { return }` then
`(*e)[key] = append((*e)[key], err.Error())`.  The error is modelled by its
`Error()` message, `none` being the nil error. -/
def Errors.Put (e : ErrorMap) (k : String) (err : Option String) : ErrorMap :=
  match err with
  | none => e
  | some msg => setAppend e k [msg]

/-- Go `Merge` (identical body in `ValidationErrors.Merge` and
`Errors.Merge`): for each field of the operand, append its messages onto the
receiver's slice for that field. -/
def Merge (e other : ErrorMap) : ErrorMap :=
  other.foldl (fun acc p => setAppend acc p.1 p.2) e

/-- Go `Errors.Err`: `if len(*e) == 0 { return nil }; return e`.  The nil
error return is `none`; otherwise the set itself is returned. -/
def Errors.Err (e : ErrorMap) : Option ErrorMap :=
  if e.length = 0 then none else some e

/-- Go `Validate` (webutil.go): run the validator on a fresh set, then
`if len(errs) > 0 { return errs }; return nil`.  Only the final length test
is modelled, applied to the accumulated set. -/
def validateResult (e : ErrorMap) : Option ErrorMap :=
  if 0 < e.length then some e else none

/-- Go `Errors.First` (errors.go): comma-ok read, empty string when the key
is absent, empty string again when the slice is empty, else `errs[0]`. -/
def Errors.First (e : ErrorMap) (k : String) : String :=
  match lookup e k with
  | none => ""
  | some [] => ""
  | some (m :: _) => m

/-- Go `ValidationErrors.First` (webutil.go): comma-ok read, empty string
when the key is absent, else `errs[0]` with no length check — indexing a
present-but-empty slice panics, modelled as `none`. -/
def ValidationErrors.First (e : ErrorMap) (k : String) : Option String :=
  match lookup e k with
  | none => some ""
  | some [] => none
  | some (m :: _) => some m

/-- Go `Errors.Has`: `errs, ok := (*e)[field]; if ok { return false }` and
then a scan of `errs` — which at that point is necessarily the nil slice —
for the error's `Error()` message. -/
def Errors.Has (e : ErrorMap) (field : String) (errMsg : String) : Bool :=
  match lookup e field with
  | some _ => false
  | none => ([] : List String).any (fun m => errMsg == m)

/-! Basic lemmas about `lookup` and `setAppend`. -/

theorem lookup_nil (k : String) : lookup [] k = none := rfl

theorem lookup_cons (p : String × List String) (e : ErrorMap) (k : String) :
    lookup (p :: e) k = if p.1 = k then some p.2 else lookup e k := by
  by_cases h : p.1 = k <;> simp [lookup, List.find?_cons, h]

theorem lookup_map_extend_self (e : ErrorMap) (k : String) (msgs : List String) :
    lookup (e.map (fun p => if p.1 = k then (p.1, p.2 ++ msgs) else p)) k =
      (lookup e k).map (fun l => l ++ msgs) := by
  induction e with
  | nil => rfl
  | cons p rest ih =>
    obtain ⟨a, v⟩ := p
    by_cases h : a = k
    · subst h
      simp only [List.map_cons, if_true]
      simp [lookup_cons]
    · simp only [List.map_cons, h, if_false]
      simp only [lookup_cons, h, if_false]
      exact ih

theorem lookup_map_extend_ne (e : ErrorMap) (k k' : String) (msgs : List String)
    (h : k' ≠ k) :
    lookup (e.map (fun p => if p.1 = k then (p.1, p.2 ++ msgs) else p)) k' =
      lookup e k' := by
  induction e with
  | nil => rfl
  | cons p rest ih =>
    obtain ⟨a, v⟩ := p
    by_cases hk : a = k
    · subst hk
      have hk' : ¬ a = k' := fun hc => h hc.symm
      simp only [List.map_cons, if_true]
      simp only [lookup_cons, hk', if_false]
      exact ih
    · simp only [List.map_cons, hk, if_false]
      by_cases hk' : a = k'
      · simp [lookup_cons, hk']
      · simp only [lookup_cons, hk', if_false]
        exact ih

theorem lookup_append (e₁ e₂ : ErrorMap) (k : String) :
    lookup (e₁ ++ e₂) k = ((lookup e₁ k).or (lookup e₂ k)) := by
  induction e₁ with
  | nil => simp [lookup_nil]
  | cons p rest ih =>
    by_cases h : p.1 = k <;> simp [lookup_cons, h, ih]

theorem lookup_eq_none_of_not_mem_keys (e : ErrorMap) (k : String)
    (h : k ∉ e.map Prod.fst) : lookup e k = none := by
  induction e with
  | nil => rfl
  | cons p rest ih =>
    simp only [List.map_cons, List.mem_cons] at h
    push_neg at h
    have : ¬ p.1 = k := fun hc => h.1 hc.symm
    simp [lookup_cons, this, ih h.2]

theorem lookup_setAppend_self (e : ErrorMap) (k : String) (msgs : List String) :
    lookup (setAppend e k msgs) k = some (lookupSlice e k ++ msgs) := by
  unfold setAppend
  by_cases h : (lookup e k).isSome
  · rw [if_pos h, lookup_map_extend_self]
    obtain ⟨l, hl⟩ := Option.isSome_iff_exists.mp h
    simp [hl, lookupSlice]
  · have hn : lookup e k = none := Option.not_isSome_iff_eq_none.mp h
    rw [if_neg h, lookup_append, hn, lookup_cons]
    simp [lookupSlice, hn]

theorem lookup_setAppend_ne (e : ErrorMap) (k k' : String) (msgs : List String)
    (h : k' ≠ k) : lookup (setAppend e k msgs) k' = lookup e k' := by
  unfold setAppend
  by_cases hs : (lookup e k).isSome
  · rw [if_pos hs, lookup_map_extend_ne _ _ _ _ h]
  · rw [if_neg hs, lookup_append, lookup_cons]
    have : ¬ k = k' := fun hc => h hc.symm
    simp only [this, if_false, lookup_nil]
    cases lookup e k' <;> simp

theorem lookupSlice_setAppend_self (e : ErrorMap) (k : String)
    (msgs : List String) :
    lookupSlice (setAppend e k msgs) k = lookupSlice e k ++ msgs := by
  simp [lookupSlice, lookup_setAppend_self]

theorem lookupSlice_setAppend_ne (e : ErrorMap) (k k' : String)
    (msgs : List String) (h : k' ≠ k) :
    lookupSlice (setAppend e k msgs) k' = lookupSlice e k' := by
  simp [lookupSlice, lookup_setAppend_ne _ _ _ _ h]

theorem keys_setAppend (e : ErrorMap) (k : String) (msgs : List String) :
    (setAppend e k msgs).map Prod.fst =
      if (lookup e k).isSome then e.map Prod.fst else e.map Prod.fst ++ [k] := by
  unfold setAppend
  by_cases h : (lookup e k).isSome
  · simp only [h, if_true]
    rw [List.map_map]
    refine List.map_congr_left (fun p _ => ?_)
    by_cases hk : p.1 = k <;> simp [hk]
  · simp [h]

theorem nodupKeys_setAppend (e : ErrorMap) (k : String) (msgs : List String)
    (h : nodupKeys e) : nodupKeys (setAppend e k msgs) := by
  unfold nodupKeys
  rw [keys_setAppend]
  by_cases hs : (lookup e k).isSome
  · simpa [hs] using h
  · have hn : lookup e k = none := Option.not_isSome_iff_eq_none.mp hs
    have hk : k ∉ e.map Prod.fst := by
      intro hmem
      have : lookup e k ≠ none := by
        clear hn hs h
        induction e with
        | nil => cases hmem
        | cons q rest ih =>
          simp only [List.map_cons, List.mem_cons] at hmem
          rcases hmem with rfl | hmem
          · simp [lookup_cons]
          · by_cases hq : q.1 = k
            · simp [lookup_cons, hq]
            · simp [lookup_cons, hq, ih hmem]
      exact this hn
    simp only [hs, if_false]
    exact List.Nodup.append h (List.nodup_singleton k)
      (by simpa [List.disjoint_singleton] using hk)

theorem exists_mem_of_lookup_eq_some (e : ErrorMap) (k : String)
    (l : List String) (h : lookup e k = some l) : ∃ p ∈ e, p.2 = l := by
  unfold lookup at h
  cases hf : e.find? (fun p => p.1 == k) with
  | none => rw [hf] at h; cases h
  | some p =>
    rw [hf] at h
    refine ⟨p, List.mem_of_find?_eq_some hf, ?_⟩
    simpa using h

/-! Lemmas about `Merge` and the invariants. -/

theorem Merge_nil (e : ErrorMap) : Merge e [] = e := rfl

theorem Merge_cons (e : ErrorMap) (p : String × List String)
    (rest : ErrorMap) : Merge e (p :: rest) = Merge (setAppend e p.1 p.2) rest := rfl

theorem nodupKeys_merge (e b : ErrorMap) (h : nodupKeys e) :
    nodupKeys (Merge e b) := by
  induction b generalizing e with
  | nil => exact h
  | cons p rest ih => exact ih _ (nodupKeys_setAppend _ _ _ h)

theorem lookupSlice_merge (b e : ErrorMap) (k : String) (hb : nodupKeys b) :
    lookupSlice (Merge e b) k = lookupSlice e k ++ lookupSlice b k := by
  induction b generalizing e with
  | nil => simp [Merge_nil, lookupSlice, lookup_nil]
  | cons p rest ih =>
    obtain ⟨a, v⟩ := p
    simp only [nodupKeys, List.map_cons, List.nodup_cons] at hb
    rw [Merge_cons]
    rw [ih _ (by exact hb.2)]
    by_cases hk : k = a
    · subst hk
      have hrest : lookup rest k = none :=
        lookup_eq_none_of_not_mem_keys _ _ hb.1
      rw [lookupSlice_setAppend_self]
      simp [lookupSlice, hrest, lookup_cons]
    · rw [lookupSlice_setAppend_ne _ _ _ _ hk]
      have hak : ¬ a = k := fun hc => hk hc.symm
      simp [lookupSlice, lookup_cons, hak]

theorem wf_setAppend (e : ErrorMap) (k : String) (msgs : List String)
    (he : wf e) (hm : msgs ≠ []) : wf (setAppend e k msgs) := by
  unfold setAppend
  by_cases h : (lookup e k).isSome
  · rw [if_pos h]
    intro p hp
    obtain ⟨q, hq, rfl⟩ := List.mem_map.mp hp
    by_cases hk : q.1 = k
    · simp only [hk, if_true]
      simp [he q hq]
    · simp only [hk, if_false]
      exact he q hq
  · rw [if_neg h]
    intro p hp
    rcases List.mem_append.mp hp with hp' | hp'
    · exact he p hp'
    · rcases List.mem_singleton.mp hp' with rfl
      exact hm

theorem wf_merge (a b : ErrorMap) (ha : wf a) (hb : wf b) : wf (Merge a b) := by
  induction b generalizing a with
  | nil => exact ha
  | cons p rest ih =>
    rw [Merge_cons]
    exact ih _ (wf_setAppend _ _ _ ha (hb p (List.mem_cons_self _ _)))
      (fun q hq => hb q (List.mem_cons_of_mem _ hq))

/-! Claim theorems about the ErrorSet operations. -/

/-- C1: for every ErrorSet satisfying the data-model invariant (a field key
is present only with at least one message), `Errors.Err` returns nil exactly
when every field's message sequence is empty — equivalently when no fields
are populated — and otherwise returns the set itself; the length test in
`Validate` yields the same result. -/
theorem err_nil_iff_no_messages (e : ErrorMap) (hwf : wf e) :
    (Errors.Err e = none ↔ ∀ k, lookupSlice e k = []) ∧
    (Errors.Err e ≠ none → Errors.Err e = some e) ∧
    validateResult e = Errors.Err e := by
  refine ⟨⟨?_, ?_⟩, ?_, ?_⟩
  · intro h k
    unfold Errors.Err at h
    by_cases he : e.length = 0
    · rw [List.length_eq_zero] at he
      subst he
      simp [lookupSlice, lookup_nil]
    · rw [if_neg he] at h
      cases h
  · intro h
    cases e with
    | nil => rfl
    | cons p rest =>
      exfalso
      obtain ⟨a, v⟩ := p
      have hv := h a
      rw [lookupSlice, lookup_cons] at hv
      simp only [if_pos rfl, Option.getD_some] at hv
      exact hwf (a, v) (List.mem_cons_self _ _) hv
  · intro h
    unfold Errors.Err at *
    by_cases he : e.length = 0
    · exact absurd (if_pos he) h
    · rw [if_neg he]
  · unfold validateResult Errors.Err
    by_cases he : e.length = 0
    · simp [he]
    · simp [he, Nat.pos_of_ne_zero he]

/-- C1 witness: the theorem instantiated at a concrete populated set. -/
theorem err_nil_iff_no_messages_witness :
    (Errors.Err [("title", ["x"])] = none ↔
      ∀ k, lookupSlice [("title", ["x"])] k = []) ∧
    (Errors.Err [("title", ["x"])] ≠ none →
      Errors.Err [("title", ["x"])] = some [("title", ["x"])]) ∧
    validateResult [("title", ["x"])] = Errors.Err [("title", ["x"])] :=
  err_nil_iff_no_messages _ (by decide)

/-- C2 counterexample: `ValidationErrors.Add` has no nil guard, so adding
the nil error to the empty set does not leave it unchanged — the call
panics (`none`) instead of returning the set. -/
theorem add_nil_counterexample :
    ValidationErrors.Add [] "title" none ≠ some [] := by
  intro h
  cases h

/-- C2 amended: `Errors.Put` with a nil error leaves the set unchanged,
while `ValidationErrors.Add` with a nil error panics on the
`err.Error()` call rather than acting as a no-op. -/
theorem put_nil_noop_add_nil_panics (e : ErrorMap) (k : String) :
    Errors.Put e k none = e ∧ ValidationErrors.Add e k none = none :=
  ⟨rfl, rfl⟩

/-- C3: merging is associative per field — merging `b` into `a` and then `c`
gives every field the same message sequence as merging `Merge b c` into `a`
— and `Merge` preserves the message order of each operand within a field
(the receiver's messages first, then the operand's, each in order). -/
theorem merge_assoc_per_field (a b c : ErrorMap) (k : String)
    (hb : nodupKeys b) (hc : nodupKeys c) :
    lookupSlice (Merge (Merge a b) c) k = lookupSlice (Merge a (Merge b c)) k ∧
    lookupSlice (Merge a b) k = lookupSlice a k ++ lookupSlice b k := by
  have h1 : lookupSlice (Merge a b) k = lookupSlice a k ++ lookupSlice b k :=
    lookupSlice_merge b a k hb
  have hbc : nodupKeys (Merge b c) := nodupKeys_merge b c hb
  refine ⟨?_, h1⟩
  rw [lookupSlice_merge c _ k hc, h1, lookupSlice_merge _ a k hbc,
    lookupSlice_merge c b k hc, List.append_assoc]

/-- C3 witness: the theorem instantiated at concrete three-way merges with a
shared field. -/
theorem merge_assoc_per_field_witness :
    lookupSlice (Merge (Merge [("f", ["a1"])] [("f", ["b1"]), ("g", ["b2"])])
        [("f", ["c1"])]) "f" =
      lookupSlice (Merge [("f", ["a1"])]
        (Merge [("f", ["b1"]), ("g", ["b2"])] [("f", ["c1"])])) "f" ∧
    lookupSlice (Merge [("f", ["a1"])] [("f", ["b1"]), ("g", ["b2"])]) "f" =
      lookupSlice [("f", ["a1"])] "f" ++
        lookupSlice [("f", ["b1"]), ("g", ["b2"])] "f" :=
  merge_assoc_per_field _ _ _ _ (by decide) (by decide)

/-- C8: `First` returns the first recorded message of a field and the empty
string when none is recorded; `Errors.First` does so totally on any map, and
`ValidationErrors.First` never panics on sets satisfying the data-model
invariant. -/
theorem first_returns_head_or_empty (e : ErrorMap) (k : String) :
    Errors.First e k = (lookupSlice e k).headD "" ∧
    (wf e → ValidationErrors.First e k = some ((lookupSlice e k).headD "")) := by
  constructor
  · cases h : lookup e k with
    | none => simp [Errors.First, lookupSlice, h]
    | some l => cases l <;> simp [Errors.First, lookupSlice, h]
  · intro hwf
    cases h : lookup e k with
    | none => simp [ValidationErrors.First, lookupSlice, h]
    | some l =>
      cases l with
      | nil =>
        exfalso
        obtain ⟨p, hp, hpl⟩ := exists_mem_of_lookup_eq_some e k [] h
        exact hwf p hp hpl
      | cons m ms => simp [ValidationErrors.First, lookupSlice, h]

/-- C8 witness: a field with messages `[m1, m2]` yields `m1`, on a set
satisfying the invariant. -/
theorem first_returns_head_or_empty_witness :
    Errors.First [("a", ["m1", "m2"])] "a" =
      (lookupSlice [("a", ["m1", "m2"])] "a").headD "" ∧
    ValidationErrors.First [("a", ["m1", "m2"])] "a" =
      some ((lookupSlice [("a", ["m1", "m2"])] "a").headD "") :=
  ⟨(first_returns_head_or_empty _ _).1,
    (first_returns_head_or_empty [("a", ["m1", "m2"])] "a").2 (by decide)⟩

/-- C9: the data-model invariant — a field key is present only with at
least one message — holds of a new ErrorSet, is preserved by `Errors.Put`
and `ValidationErrors.Add` with a non-nil error, and is preserved by
`Merge` when both operands satisfy it. -/
theorem invariant_preserved (a b : ErrorMap) (k msg : String) (g : GoErr)
    (ha : wf a) (hb : wf b) :
    wf ([] : ErrorMap) ∧
    wf (Errors.Put a k (some msg)) ∧
    (∃ e', ValidationErrors.Add a k (some g) = some e' ∧ wf e') ∧
    wf (Merge a b) :=
  ⟨fun _ hp => absurd hp (List.not_mem_nil _),
    wf_setAppend _ _ _ ha (by simp),
    ⟨_, rfl, wf_setAppend _ _ _ ha (by simp)⟩,
    wf_merge _ _ ha hb⟩

/-- C9 witness: the theorem instantiated at concrete invariant-satisfying
sets. -/
theorem invariant_preserved_witness :
    wf ([] : ErrorMap) ∧
    wf (Errors.Put [("a", ["x"])] "b" (some "m")) ∧
    (∃ e', ValidationErrors.Add [("a", ["x"])] "b"
      (some (GoErr.plain "m")) = some e' ∧ wf e') ∧
    wf (Merge [("a", ["x"])] [("b", ["y"])]) :=
  invariant_preserved _ _ _ _ _ (by decide) (by decide)

/-- C10: `Errors.Has` returns false for every set, field and error message:
a present key returns false immediately before the scan, and an absent key
leaves only the nil slice to scan. -/
theorem has_always_false (e : ErrorMap) (field errMsg : String) :
    Errors.Has e field errMsg = false := by
  unfold Errors.Has
  cases h : lookup e field <;> simp

/-! Embedding of `humanSize`, `FileValidator.Validate`,
`FormUnmarshaler.UnmarshalRequest` and the body-as-file extraction. -/

/-- Loop of Go `humanSize`: `for ; n > 1024; i++ { n /= 1024 }`.  The Go
value is an `int64`; every call site passes a positive size, so `Nat`
carries the same arithmetic. -/
def humanSizeLoop (n : Nat) (i : Nat) : Nat × Nat :=
  if 1024 < n then humanSizeLoop (n / 1024) (i + 1) else (n, i)
termination_by n
decreasing_by exact Nat.div_lt_self (by omega) (by omega)

/-- Unit slice of Go `humanSize`. -/
def units : List String := ["B", "KB", "MB", "GB", "TB", "PB"]

/-- Go `humanSize`: run the division loop, then render
`fmt.Sprintf("%d %s", n, units[i])`; an index past `"PB"` panics (`none`). -/
def humanSize (n : Nat) : Option String :=
  (units.get? (humanSizeLoop n 0).2).map
    (fun u => toString (humanSizeLoop n 0).1 ++ " " ++ u)

theorem humanSize_1024 : humanSize 1024 = some "1024 B" := by
  simp [humanSize, humanSizeLoop, units]; rfl

/-- Go `FileValidator` (webutil.go): `hasFile` is `v.File.File != nil`,
`headerSize` is `v.Header.Size`, `size` the configured maximum, `typ` the
sniffed MIME type `v.Type`. -/
structure FileValidator where
  hasFile : Bool
  headerSize : Nat
  size : Nat
  mimes : List String
  mimesAllowed : Bool
  typ : String
  field : String

/-- Go `FileValidator.Validate` (webutil.go): report a required-field error
when no file was uploaded; then compare `Header.Size` with the maximum
(0 = unlimited) and append a "cannot be bigger than" message; then record
one allow/deny message per mismatched MIME entry.  The `errs.Add` calls all
pass non-nil errors; `humanSize`'s potential index panic is threaded as
`none`. -/
def FileValidator.validate (v : FileValidator) (errs : ErrorMap) :
    Option ErrorMap :=
  if !v.hasFile then
    some (setAppend errs v.field [v.field ++ " field is required"])
  else
    let afterSize : Option ErrorMap :=
      if 0 < v.size ∧ v.size < v.headerSize then
        (humanSize v.size).map (fun hs =>
          setAppend errs v.field [v.field ++ " cannot be bigger than " ++ hs])
      else some errs
    afterSize.map (fun e1 =>
      let mimes := String.intercalate ", " v.mimes
      v.mimes.foldl (fun acc mime =>
        if (v.typ == mime) != v.mimesAllowed then
          setAppend acc v.field
            [if v.mimesAllowed then v.field ++ " must be one of " ++ mimes
             else v.field ++ " cannot be one of " ++ mimes]
        else acc) e1)

/-- Go error results seen by `FormUnmarshaler.UnmarshalRequest`: `io.EOF`
or any other error with its message. -/
inductive ReqError
  | eof
  | other (msg : String)
deriving DecidableEq

/-- Behaviour of `json.NewDecoder(r.Body).Decode`: a body with no bytes
before EOF makes the decoder return `io.EOF`; on a non-empty body the
decoder's result is the abstract `decode` parameter. -/
def jsonDecode (body : List UInt8) (decode : Option ReqError) :
    Option ReqError :=
  if body = [] then some ReqError.eof else decode

/-- Go `strings.HasPrefix`, on the character sequences of the strings. -/
def hasPrefix (pre s : String) : Bool := pre.data.isPrefixOf s.data

/-- Go `FormUnmarshaler.UnmarshalRequest` (webutil.go): when the declared
Content-Type starts with `application/json`, decode the body as JSON and
swallow `io.EOF`; otherwise parse and decode the form values, abstracted
as `formResult`. -/
def unmarshalRequest (contentType : String) (body : List UInt8)
    (decode : Option ReqError) (formResult : Option ReqError) :
    Option ReqError :=
  if hasPrefix "application/json" contentType then
    match jsonDecode body decode with
    | some ReqError.eof => none
    | some (ReqError.other m) => some (ReqError.other m)
    | none => none
  else formResult

/-- Go `defaultMaxMemory`: `32 << 20` bytes, the 32 MiB in-memory
threshold. -/
def defaultMaxMemory : Nat := 32 * 2 ^ 20

/-- Backing store of an extracted body-as-file upload. -/
inductive Backing
  | memory (data : List UInt8)
  | tempFile (data : List UInt8)
deriving DecidableEq

/-- Modelled from the spec: the non-multipart branch of `UnmarshalFile` is
missing from the sources — only its test `Test_Large_UnmarshalFile` and the
spec reference `defaultMaxMemory` — so it is taken from the spec's words:
the body is buffered up to `defaultMaxMemory` plus one extra byte to detect
overflow; within the limit the buffer backs an in-memory seekable stream;
beyond it the accumulated buffer plus the remaining unread body are
streamed into a newly created temporary file; an empty body (zero bytes
before EOF) yields no file, `found = false` (`none`). -/
def unmarshalFileBody (body : List UInt8) : Option Backing :=
  let buf := body.take (defaultMaxMemory + 1)
  if buf.length = 0 then none
  else if defaultMaxMemory < buf.length then
    some (Backing.tempFile (buf ++ body.drop (defaultMaxMemory + 1)))
  else
    some (Backing.memory buf)

/-! Claim theorems for unmarshalling, file extraction and file
validation. -/

/-- C4: for every request whose declared Content-Type indicates
`application/json` and whose body is empty, `UnmarshalRequest` returns nil
at the decode stage — no error and hence no ErrorSet — whatever the
decoder would do on other bodies and whatever the form path would return. -/
theorem json_empty_body_no_error (ct : String) (body : List UInt8)
    (decode formResult : Option ReqError)
    (hct : hasPrefix "application/json" ct = true) (hbody : body = []) :
    unmarshalRequest ct body decode formResult = none := by
  subst hbody
  simp [unmarshalRequest, jsonDecode, hct]

/-- C4 witness: an empty body declared `application/json; charset=utf-8`
decodes with no error even when the abstract decoder and form path would
fail. -/
theorem json_empty_body_no_error_witness :
    hasPrefix "application/json" "application/json; charset=utf-8" = true ∧
    unmarshalRequest "application/json; charset=utf-8" []
      (some (ReqError.other "boom")) (some (ReqError.other "fatal")) = none :=
  ⟨by decide, json_empty_body_no_error _ _ _ _ (by decide) rfl⟩

/-- C5: for a non-multipart body-as-file upload, a body exceeding the
32 MiB threshold by any amount is spilled to a newly created temporary
file whose contents byte-for-byte match the original body, while a
non-empty body within the threshold is backed by the in-memory buffer
holding exactly the body. -/
theorem body_file_spill (body : List UInt8) :
    (defaultMaxMemory < body.length →
      unmarshalFileBody body = some (Backing.tempFile body)) ∧
    (0 < body.length → body.length ≤ defaultMaxMemory →
      unmarshalFileBody body = some (Backing.memory body)) := by
  constructor
  · intro h
    unfold unmarshalFileBody
    have htake : (body.take (defaultMaxMemory + 1)).length =
        defaultMaxMemory + 1 := by
      rw [List.length_take]; omega
    simp only [htake]
    rw [if_neg (by omega), if_pos (by omega), List.take_append_drop]
  · intro h0 hle
    unfold unmarshalFileBody
    have htake : body.take (defaultMaxMemory + 1) = body :=
      List.take_of_length_le (by omega)
    simp only [htake]
    rw [if_neg (by omega), if_neg (by omega)]

/-- C5 witness: a body one byte over the threshold lands in a temporary
file with identical contents. -/
theorem body_file_spill_witness :
    defaultMaxMemory <
      (List.replicate (defaultMaxMemory + 1) (0 : UInt8)).length ∧
    unmarshalFileBody (List.replicate (defaultMaxMemory + 1) (0 : UInt8)) =
      some (Backing.tempFile (List.replicate (defaultMaxMemory + 1) 0)) :=
  ⟨by rw [List.length_replicate]; omega,
    (body_file_spill _).1 (by rw [List.length_replicate]; omega)⟩

/-- C6 counterexample: `humanSize` only divides while the value strictly
exceeds 1024, so 1024 renders as `"1024 B"`, not `"1 KB"` as the claim
states. -/
theorem humanSize_1024_counterexample : humanSize 1024 ≠ some "1 KB" := by
  rw [humanSize_1024]
  decide

/-- C6 amended: `humanSize` maps 0 to `"0 B"`, 1024 to `"1024 B"`, 1536 to
`"1 KB"` (integer truncation) and 1048576 to `"1024 KB"`, dividing by 1024
only while the value strictly exceeds 1024. -/
theorem humanSize_values :
    humanSize 0 = some "0 B" ∧ humanSize 1024 = some "1024 B" ∧
    humanSize 1536 = some "1 KB" ∧ humanSize 1048576 = some "1024 KB" := by
  refine ⟨?_, humanSize_1024, ?_, ?_⟩
  · simp [humanSize, humanSizeLoop, units]; rfl
  · simp [humanSize, humanSizeLoop, units]; rfl
  · simp [humanSize, humanSizeLoop, units]; rfl

/-- C7 counterexample: a file of declared size 2048 validated against a
maximum of 1024 does not produce the message
`"avatar cannot be bigger than 1 KB"` — `humanSize 1024` is `"1024 B"`. -/
theorem file_size_message_counterexample :
    FileValidator.validate ⟨true, 2048, 1024, [], false, "", "avatar"⟩ [] ≠
      some [("avatar", ["avatar cannot be bigger than 1 KB"])] := by
  intro h
  simp [FileValidator.validate, humanSize_1024, setAppend, lookup] at h

/-- C7 amended: a multipart upload with declared header size 2048 validated
against a file validator with maximum size 1024 and no MIME list produces
exactly one message on the file's field, namely
`"<field> cannot be bigger than 1024 B"`. -/
theorem file_size_message (f t : String) (b : Bool) :
    FileValidator.validate ⟨true, 2048, 1024, [], b, t, f⟩ [] =
      some [(f, [f ++ " cannot be bigger than 1024 B"])] := by
  have hlit : (" cannot be bigger than " ++ "1024 B" : String) =
      " cannot be bigger than 1024 B" := rfl
  simp [FileValidator.validate, humanSize_1024, setAppend, lookup,
    String.append_assoc, hlit]

end Webutil
